import Mathlib

/-!
Shallow embedding of the `password-manager-CS-compsec` repository core:
key derivation and AEAD record encryption (`app/crypto/crypto_utils.py`),
vault storage (`app/storage.py` and the inline vault I/O of
`app/ui/main_ui.py`), the P2P transfer channel (`app/p2p/p2p.py`) and the
legacy Fernet entry cipher (`app/crypto_utils.py`).

Library primitives that the repository calls (PBKDF2, AES-GCM, Fernet,
`json`) are modelled as ideal, executable codecs: a derived key is an
abstract token determined by the KDF parameters, passphrase and salt, and
the AEAD ciphertext is an injective byte-level serialization of
(key, nonce, plaintext) protected by a one-byte checksum standing in for
the 128-bit GCM tag.  The repository's own functions are translated
statement by statement on top of these primitives.
-/

namespace PM

/-- Raw byte strings (`bytes` in Python): lists of naturals; a well-formed
byte string has every entry `< 256`. -/
abbrev Bytes := List Nat

/-- Well-formedness of a byte string: every entry is an 8-bit value. -/
def IsBytes (l : Bytes) : Prop := ∀ b ∈ l, b < 256

instance (l : Bytes) : Decidable (IsBytes l) := by
  unfold IsBytes; infer_instance

/-- Flip bit `k` of the byte at index `i` (XOR with `2^k`).  Tampering with
one bit of a persisted field is modelled this way. -/
def flipBit (l : Bytes) (i k : Nat) : Bytes :=
  l.set i (l.getD i 0 ^^^ 2 ^ k)

/-- Variable-length (base-128) encoding of a natural number, used as the
length prefix inside the ideal serializations.  (Fuel-based structural
recursion; `varint_eq` below is the natural unfolding.) -/
def varintAux (fuel : Nat) : Nat → Bytes :=
  Nat.rec (motive := fun _ => Nat → Bytes)
    (fun n => [n])
    (fun _ ih n => if n < 128 then [n] else (n % 128 + 128) :: ih (n / 128))
    fuel

def varint (n : Nat) : Bytes := varintAux n n

/-- Reader inverse of `varint`: parses a length prefix, returns it with the
unconsumed rest. -/
def parseNat : Bytes → Option (Nat × Bytes)
  | [] => none
  | b :: rest =>
    if b < 128 then some (b, rest)
    else (parseNat rest).map fun p => (b - 128 + 128 * p.1, p.2)

/-- Read exactly `n` bytes, fail if fewer are available. -/
def readN (n : Nat) (l : Bytes) : Option (Bytes × Bytes) :=
  if n ≤ l.length then some (l.take n, l.drop n) else none

/-- Length-prefixed serialization of a raw byte string. -/
def serBytes (b : Bytes) : Bytes := varint b.length ++ b

/-- Reader inverse of `serBytes`. -/
def parseBytes (l : Bytes) : Option (Bytes × Bytes) :=
  (parseNat l).bind fun p => readN p.1 p.2

/-- One character as three bytes (code points are `< 0x110000 ≤ 2^21`). -/
def serChar (c : Char) : Bytes := [c.toNat % 256, c.toNat / 256 % 256, c.toNat / 65536]

/-- Rebuild a character from three bytes. -/
def charOf3 (b0 b1 b2 : Nat) : Char := Char.ofNat (b0 + 256 * b1 + 65536 * b2)

/-- Decode a flat list of 3-byte groups back into characters. -/
def charsOf : Bytes → List Char
  | b0 :: b1 :: b2 :: rest => charOf3 b0 b1 b2 :: charsOf rest
  | _ => []

/-- Length-prefixed serialization of a string (the prefix counts characters;
each character occupies three bytes). -/
def serString (s : String) : Bytes :=
  varint s.length ++ s.data.flatMap serChar

/-- Reader inverse of `serString`. -/
def parseString (l : Bytes) : Option (String × Bytes) :=
  (parseNat l).bind fun p =>
    (readN (3 * p.1) p.2).map fun q => (String.mk (charsOf q.1), q.2)

/-! ### Key derivation (`app/crypto/crypto_utils.py`, `derive_key`)

PBKDF2 is idealized: the derived key is an abstract token determined by the
KDF configuration, the passphrase and the salt.  The configuration recorded
in the token is exactly the one passed to `PBKDF2HMAC` in the source
(SHA-256, 32-byte output, 100 000 iterations); two keys are equal iff all
three components agree, which captures both determinism and the fact that
changing any input (or the iteration count) changes the key. -/

inductive HashAlgo
  | SHA256
deriving DecidableEq

structure PBKDF2Params where
  algorithm : HashAlgo
  length : Nat
  iterations : Nat
deriving DecidableEq

structure DerivedKey where
  params : PBKDF2Params
  password : String
  salt : Bytes
deriving DecidableEq

/-- The `PBKDF2HMAC(algorithm=SHA256(), length=32, iterations=100_000)`
configuration from `derive_key`. -/
def derive_key_params : PBKDF2Params :=
  { algorithm := HashAlgo.SHA256, length := 32, iterations := 100000 }

/-- `derive_key(password, salt)` (crypto_utils.py lines 8-15): PBKDF2 over
the UTF-8 passphrase and the salt, with the fixed configuration above. -/
def derive_key (password : String) (salt : Bytes) : DerivedKey :=
  { params := derive_key_params, password := password, salt := salt }

def HashAlgo.tag : HashAlgo → Nat
  | .SHA256 => 0

/-- Byte-level serialization of a derived key, used inside the ideal AEAD
ciphertext. -/
def serKey (k : DerivedKey) : Bytes :=
  varint k.params.algorithm.tag ++ varint k.params.length ++
    varint k.params.iterations ++ serString k.password ++ serBytes k.salt

def parseKey (l : Bytes) : Option (DerivedKey × Bytes) :=
  (parseNat l).bind fun a =>
  (parseNat a.2).bind fun b =>
  (parseNat b.2).bind fun c =>
  (parseString c.2).bind fun d =>
  (parseBytes d.2).map fun e =>
    ({ params := { algorithm := HashAlgo.SHA256, length := b.1, iterations := c.1 },
       password := d.1, salt := e.1 }, e.2)

/-! ### Ideal AEAD (`AESGCM(key).encrypt/.decrypt` with associated data `None`)

The ciphertext is the injective serialization of (key, nonce, plaintext)
followed by a one-byte checksum, standing in for `ciphertext || tag`.
Decryption re-reads the serialization, verifies the checksum and that the
recorded key and nonce match the ones supplied, and otherwise fails —
the ideal behaviour of an AEAD whose tag never verifies on forgeries. -/

def serPlain (k : DerivedKey) (nonce : Bytes) (pt : String) : Bytes :=
  serKey k ++ (serBytes nonce ++ serString pt)

def parsePlain (l : Bytes) : Option ((DerivedKey × Bytes × String) × Bytes) :=
  (parseKey l).bind fun a =>
  (parseBytes a.2).bind fun b =>
  (parseString b.2).map fun c => ((a.1, b.1, c.1), c.2)

/-- `aesgcm.encrypt(nonce, plaintext, None)`: serialized record plus
checksum tag. -/
def aesgcm_encrypt (key : DerivedKey) (nonce : Bytes) (pt : String) : Bytes :=
  serPlain key nonce pt ++ [(serPlain key nonce pt).sum % 256]

/-- `aesgcm.decrypt(nonce, ciphertext, None)`: verifies the tag (checksum
and matching key/nonce with full consumption) and returns the plaintext,
failing (`InvalidTag`, i.e. `none`) otherwise. -/
def aesgcm_decrypt (key : DerivedKey) (nonce : Bytes) (ct : Bytes) : Option String :=
  ct.getLast?.bind fun tag =>
    if ct.dropLast.sum % 256 = tag then
      (parsePlain ct.dropLast).bind fun q =>
        if q.1.1 = key ∧ q.1.2.1 = nonce ∧ q.2 = [] then some q.1.2.2 else none
    else none

/-! ### URL-safe base64 (`base64.urlsafe_b64encode/urlsafe_b64decode`)

The record fields are stored as URL-safe base64 text, exactly as the source
produces with `urlsafe_b64encode(...).decode()`. -/

def b64Char (s : Nat) : Char :=
  Char.ofNat (if s < 26 then 65 + s
    else if s < 52 then 97 + (s - 26)
    else if s < 62 then 48 + (s - 52)
    else if s = 62 then 45 else 95)

def b64DecChar (c : Char) : Option Nat :=
  if 65 ≤ c.toNat ∧ c.toNat ≤ 90 then some (c.toNat - 65)
  else if 97 ≤ c.toNat ∧ c.toNat ≤ 122 then some (c.toNat - 97 + 26)
  else if 48 ≤ c.toNat ∧ c.toNat ≤ 57 then some (c.toNat - 48 + 52)
  else if c.toNat = 45 then some 62
  else if c.toNat = 95 then some 63
  else none

def urlsafe_b64encode : Bytes → List Char
  | a :: b :: c :: rest =>
      b64Char (a / 4) :: b64Char (a % 4 * 16 + b / 16) :: b64Char (b % 16 * 4 + c / 64)
        :: b64Char (c % 64) :: urlsafe_b64encode rest
  | [a, b] => [b64Char (a / 4), b64Char (a % 4 * 16 + b / 16), b64Char (b % 16 * 4), '=']
  | [a] => [b64Char (a / 4), b64Char (a % 4 * 16), '=', '=']
  | [] => []

def urlsafe_b64decode : List Char → Option Bytes
  | c1 :: c2 :: c3 :: c4 :: rest =>
    if c3 = '=' ∧ c4 = '=' ∧ rest = [] then
      (b64DecChar c1).bind fun s1 =>
      (b64DecChar c2).map fun s2 => [s1 * 4 + s2 / 16]
    else if c4 = '=' ∧ rest = [] then
      (b64DecChar c1).bind fun s1 =>
      (b64DecChar c2).bind fun s2 =>
      (b64DecChar c3).map fun s3 => [s1 * 4 + s2 / 16, s2 % 16 * 16 + s3 / 4]
    else
      (b64DecChar c1).bind fun s1 =>
      (b64DecChar c2).bind fun s2 =>
      (b64DecChar c3).bind fun s3 =>
      (b64DecChar c4).bind fun s4 =>
      (urlsafe_b64decode rest).map fun tail =>
        (s1 * 4 + s2 / 16) :: (s2 % 16 * 16 + s3 / 4) :: (s3 % 4 * 64 + s4) :: tail
  | [] => some []
  | _ => none

/-! ### Record cipher (`app/crypto/crypto_utils.py`, `encrypt`/`decrypt`)

`encrypt` consumes 16 fresh salt bytes and 12 fresh nonce bytes from
`os.urandom`; the embedding passes this randomness explicitly. -/

structure EncryptedRecord where
  salt : String
  nonce : String
  ciphertext : String
deriving DecidableEq

/-- `encrypt(password, plaintext)` (crypto_utils.py lines 17-27): derive a
key from a fresh salt, AEAD-encrypt under a fresh nonce, base64 the three
fields. -/
def encrypt (password : String) (salt nonce : Bytes) (plaintext : String) :
    EncryptedRecord :=
  { salt := String.mk (urlsafe_b64encode salt)
    nonce := String.mk (urlsafe_b64encode nonce)
    ciphertext := String.mk (urlsafe_b64encode
      (aesgcm_encrypt (derive_key password salt) nonce plaintext)) }

/-- `decrypt(password, data)` (crypto_utils.py lines 29-35): base64-decode
the fields, re-derive the key from the stored salt, AEAD-decrypt.  `none`
is the `InvalidTag` failure. -/
def decrypt (password : String) (data : EncryptedRecord) : Option String :=
  (urlsafe_b64decode data.salt.data).bind fun salt =>
  (urlsafe_b64decode data.nonce.data).bind fun nonce =>
  (urlsafe_b64decode data.ciphertext.data).bind fun ciphertext =>
  aesgcm_decrypt (derive_key password salt) nonce ciphertext

/-! ### Vault storage (`app/storage.py`)

`json.load`/`json.dump` are idealized: a file either holds the serialized
form of a JSON document (`jsonDoc j`) or text that fails JSON parsing
(`notJson`); parsing is all-or-nothing, as in the `json` module.  A missing
file is `none`. -/

inductive Json
  | str (s : String)
  | arr (l : List Json)
  | obj (fields : List (String × Json))

inductive FileContent
  | jsonDoc (j : Json)
  | notJson

inductive StorageErr
  | corrupt      -- json.JSONDecodeError from json.load
  | typeError    -- AttributeError: .append on a non-list

/-- `load_data()` (storage.py lines 6-10): parse the file if it exists,
else return `[]`. -/
def load_data : Option FileContent → Except StorageErr Json
  | none => .ok (.arr [])
  | some (.jsonDoc j) => .ok j
  | some .notJson => .error .corrupt

/-- `save_data(data)` (storage.py lines 12-14): overwrite the file with the
serialized document. -/
def save_data (data : Json) : Option FileContent :=
  some (.jsonDoc data)

/-- The "Add" flow of `ui.py` `on_button_pressed` (lines 25-34):
`data = load_data(); data.append(encrypted); save_data(data)`.
`.append` on a parsed non-list raises `AttributeError`. -/
def add_entry_flow (st : Option FileContent) (encrypted : Json) :
    Except StorageErr (Option FileContent) :=
  match load_data st with
  | .ok (.arr l) => .ok (save_data (.arr (l ++ [encrypted])))
  | .ok _ => .error .typeError
  | .error e => .error e

/-- The "clear" branch of `handle_confirm` (main_ui.py lines 1314-1324):
`json.dump([], f)` replaces the vault with an empty list. -/
def clear_vault (_st : Option FileContent) : Option FileContent :=
  some (.jsonDoc (.arr []))

/-- Whether a JSON document is a well-formed record object
`{salt, nonce, ciphertext}` with string values. -/
def isRecordObj : Json → Bool
  | .obj [("salt", .str _), ("nonce", .str _), ("ciphertext", .str _)] => true
  | _ => false

/-- Whether a JSON document is a sequence of records. -/
def isRecordSeq : Json → Bool
  | .arr l => l.all isRecordObj
  | _ => false

/-! ### Entry JSON codec (`json.dumps`/`json.loads` of a vault entry)

`handle_save_entry` encrypts `json.dumps({"service": ..., "username": ...,
"password": ...})`; `handle_load_vault` re-parses that text.  The codec is
modelled faithfully to `json.dumps`'s default layout with quote/backslash
escaping. -/

structure Entry where
  service : String
  username : String
  password : String
deriving DecidableEq

def escapeChar (c : Char) : List Char :=
  if c = '"' ∨ c = '\\' then ['\\', c] else [c]

def escapeStr (s : String) : List Char := s.data.flatMap escapeChar

/-- `json.dumps({"service": S, "username": U, "password": P})`. -/
def dumpsEntry (e : Entry) : String :=
  String.mk ("\x7b\"service\": \"".data ++ escapeStr e.service
    ++ "\", \"username\": \"".data ++ escapeStr e.username
    ++ "\", \"password\": \"".data ++ escapeStr e.password ++ "\"\x7d".data)

/-- Parse a JSON string body up to its closing quote, undoing escapes. -/
def parseJString : List Char → Option (List Char × List Char)
  | '\\' :: c :: rest => (parseJString rest).map fun p => (c :: p.1, p.2)
  | '"' :: rest => some ([], rest)
  | c :: rest => (parseJString rest).map fun p => (c :: p.1, p.2)
  | [] => none

/-- Consume an expected literal prefix. -/
def dropLit : List Char → List Char → Option (List Char)
  | [], l => some l
  | p :: ps, c :: cs => if c = p then dropLit ps cs else none
  | _ :: _, [] => none

/-- `json.loads` of an entry object followed by the three field reads
performed by the UI handlers (char-list core). -/
def loadsEntryChars (l : List Char) : Option Entry :=
  (dropLit "\x7b\"service\": \"".data l).bind fun r1 =>
  (parseJString r1).bind fun q1 =>
  (dropLit ", \"username\": \"".data q1.2).bind fun r2 =>
  (parseJString r2).bind fun q2 =>
  (dropLit ", \"password\": \"".data q2.2).bind fun r3 =>
  (parseJString r3).bind fun q3 =>
  if q3.2 = ['}'] then
    some { service := String.mk q1.1, username := String.mk q2.1,
           password := String.mk q3.1 }
  else none

/-- `json.loads` of an entry object. -/
def loadsEntry (s : String) : Option Entry := loadsEntryChars s.data

/-! ### UI vault handlers (`app/ui/main_ui.py`)

The vault file behind `VAULT_PATH` is either missing, unparseable JSON, or
a JSON array of records; the table and status widget are represented by the
returned rows and status string.  Input values arrive already stripped, as
`get_input_values` produces them. -/

inductive VaultFile
  | missing
  | corrupt
  | vault (records : List EncryptedRecord)
deriving DecidableEq

structure LoadResult where
  status : String
  rows : List Entry
deriving DecidableEq

/-- The per-record body of the load loop:
`json.loads(decrypt(master, record))` plus the three field reads; `none`
is the caught exception. -/
def decryptRecordEntry (master : String) (record : EncryptedRecord) : Option Entry :=
  (decrypt master record).bind loadsEntry

/-- `handle_load_vault(master)` (main_ui.py lines 1326-1360). -/
def handle_load_vault (master : String) (file : VaultFile) : LoadResult :=
  if master = "" then ⟨"[Error] Master password is required.", []⟩
  else if master.length < 8 then
    ⟨"[Error] Master password must be at least 8 characters.", []⟩
  else
    match file with
    | .missing => ⟨"[Error] No vault found.", []⟩
    | .corrupt => ⟨"[Error] Vault file is corrupted.", []⟩
    | .vault data =>
      let rows := data.filterMap (decryptRecordEntry master)
      let errors := data.countP fun record => (decryptRecordEntry master record).isNone
      if errors = data.length then
        ⟨"[Error] Decryption failed for all entries.", rows⟩
      else if 0 < errors then
        ⟨"Loaded vault with " ++ toString errors ++ " decryption errors.", rows⟩
      else ⟨"Vault loaded successfully.", rows⟩

structure SaveInputs where
  master : String
  service : String
  username : String
  password : String
deriving DecidableEq

inductive SaveOutcome
  | error (status : String) (file : VaultFile)
  | pendingConfirm (file : VaultFile)
  | saved (file : VaultFile)
deriving DecidableEq

/-- `check_service_exists` (main_ui.py lines 1195-1203): decrypt each
record with the current master input and compare the service field;
exceptions are skipped. -/
def check_service_exists (master service : String)
    (data : List EncryptedRecord) : Bool :=
  data.any fun record =>
    match decryptRecordEntry master record with
    | some entry => entry.service = service
    | none => false

/-- `handle_save_entry(inputs)` (main_ui.py lines 1231-1271).  The fresh
salt and nonce consumed by `encrypt` are passed explicitly. -/
def handle_save_entry (inp : SaveInputs) (file : VaultFile)
    (salt nonce : Bytes) : SaveOutcome :=
  if inp.service = "" ∨ inp.password = "" then
    .error "[Error] Service and Password are required." file
  else if inp.master.length < 8 then
    .error "[Error] Master password must be at least 8 characters." file
  else
    match file with
    | .corrupt => .error "[Error] Vault file is corrupted." file
    | .missing =>
      .saved (.vault [encrypt inp.master salt nonce
        (dumpsEntry ⟨inp.service, inp.username, inp.password⟩)])
    | .vault data =>
      if check_service_exists inp.master inp.service data then
        .pendingConfirm file
      else
        .saved (.vault (data ++ [encrypt inp.master salt nonce
          (dumpsEntry ⟨inp.service, inp.username, inp.password⟩)]))

/-! ### P2P transfer channel (`app/p2p/p2p.py`)

The TLS transport is abstracted to the byte stream available on the single
accepted connection; certificate/key files are modelled by their decoded
contents at the fixed `CERT_FILE`/`KEY_FILE` location. -/

/-- `ssock.recv(4096)` in `receive_password` (p2p.py lines 58-67): one read
of at most 4096 bytes from the single accepted connection; whatever was
read is returned, excess bytes are never read. -/
def receive_password (incoming : Bytes) : Bytes :=
  incoming.take 4096

structure RSAKey where
  bits : Nat
  publicExponent : Nat
deriving DecidableEq

structure Certificate where
  country : String
  stateOrProvince : String
  locality : String
  organization : String
  commonName : String
  issuerCommonName : String
  subjectAltNames : List String
  validFromDay : Nat
  validToDay : Nat
  keyBits : Nat
  selfSigned : Bool
deriving DecidableEq

structure PkiState where
  certFile : Option Certificate
  keyFile : Option RSAKey
deriving DecidableEq

/-- `create_self_signed_cert()` (p2p.py lines 8-47): return unchanged when
both files exist; otherwise generate a 2048-bit RSA key and a self-signed
certificate valid 365 days from `now` with CN and SAN `localhost`, and
persist both (PEM encoding abstracted).  `now` is `datetime.utcnow()` in
days. -/
def create_self_signed_cert (st : PkiState) (now : Nat) : PkiState :=
  if st.certFile.isSome ∧ st.keyFile.isSome then st
  else
    { certFile := some
        { country := "US"
          stateOrProvince := "State"
          locality := "Locality"
          organization := "MyOrg"
          commonName := "localhost"
          issuerCommonName := "localhost"
          subjectAltNames := ["localhost"]
          validFromDay := now
          validToDay := now + 365
          keyBits := 2048
          selfSigned := true }
      keyFile := some { bits := 2048, publicExponent := 65537 } }

/-! ### Legacy Fernet entry cipher (`app/crypto_utils.py`)

Fernet is idealized as a symbolic AEAD keyed by the process-wide
`SECRET_KEY`: the module-level key is the `MASTER_KEY` environment variable
if set, otherwise a key freshly generated at import time (distinct runs
generate distinct keys, represented by a run identifier). -/

inductive FernetKey
  | fromEnv (material : String)
  | generated (run : Nat)
deriving DecidableEq

/-- `SECRET_KEY = env_key.encode() if env_key else Fernet.generate_key()`
(crypto_utils.py lines 6-8), fixed once per process run at import time. -/
def SECRET_KEY (envMasterKey : Option String) (run : Nat) : FernetKey :=
  match envMasterKey with
  | some k => .fromEnv k
  | none => .generated run

structure FernetToken where
  key : FernetKey
  plaintext : String
deriving DecidableEq

def fernet_encrypt (key : FernetKey) (pt : String) : FernetToken :=
  { key := key, plaintext := pt }

def fernet_decrypt (key : FernetKey) (tok : FernetToken) : Option String :=
  if tok.key = key then some tok.plaintext else none

structure EncEntry where
  site : FernetToken
  username : FernetToken
  password : FernetToken
deriving DecidableEq

/-- `encrypt_entry(site, username, password)` (crypto_utils.py lines
11-16): each field Fernet-encrypted under the module key. -/
def encrypt_entry (key : FernetKey) (site username password : String) :
    EncEntry :=
  { site := fernet_encrypt key site
    username := fernet_encrypt key username
    password := fernet_encrypt key password }

/-- `decrypt_entry(entry)` (crypto_utils.py lines 18-23): each field
Fernet-decrypted under the module key; `none` is `InvalidToken`. -/
def decrypt_entry (key : FernetKey) (entry : EncEntry) :
    Option (String × String × String) :=
  (fernet_decrypt key entry.site).bind fun s =>
  (fernet_decrypt key entry.username).bind fun u =>
  (fernet_decrypt key entry.password).map fun p => (s, u, p)

theorem varintAux_zero (n : Nat) : varintAux 0 n = [n] := rfl

theorem varintAux_succ (fuel n : Nat) :
    varintAux (fuel + 1) n
      = if n < 128 then [n] else (n % 128 + 128) :: varintAux fuel (n / 128) := rfl

theorem varintAux_fuel :
    ∀ n, ∀ {f1 f2 : Nat}, n ≤ f1 → n ≤ f2 → varintAux f1 n = varintAux f2 n := by
  intro n
  induction n using Nat.strong_induction_on with
  | _ n ih =>
    intro f1 f2 h1 h2
    match f1, f2 with
    | 0, 0 => rfl
    | 0, g + 1 =>
      have hn : n = 0 := by omega
      subst hn
      simp [varintAux_zero, varintAux_succ]
    | g + 1, 0 =>
      have hn : n = 0 := by omega
      subst hn
      simp [varintAux_zero, varintAux_succ]
    | g1 + 1, g2 + 1 =>
      by_cases h : n < 128
      · simp [varintAux_succ, h]
      · have hd : n / 128 < n := Nat.div_lt_self (by omega) (by omega)
        have hg1 : n / 128 ≤ g1 := by omega
        have hg2 : n / 128 ≤ g2 := by omega
        rw [varintAux_succ, varintAux_succ, if_neg h, if_neg h,
          ih (n / 128) hd hg1 hg2]

theorem varint_eq (n : Nat) :
    varint n = if n < 128 then [n] else (n % 128 + 128) :: varint (n / 128) := by
  unfold varint
  by_cases h : n < 128
  · match n, h with
    | 0, _ => simp [varintAux_zero]
    | m + 1, h => simp [varintAux_succ, h]
  · have hpos : n ≠ 0 := by omega
    match n, hpos with
    | m + 1, _ =>
      rw [varintAux_succ, if_neg h, if_neg h]
      have hd : (m + 1) / 128 < m + 1 := Nat.div_lt_self (by omega) (by omega)
      rw [varintAux_fuel ((m + 1) / 128) (by omega) (le_refl _)]

theorem parseNat_varint (n : Nat) (r : Bytes) :
    parseNat (varint n ++ r) = some (n, r) := by
  induction n using Nat.strong_induction_on with
  | _ n ih =>
    rw [varint_eq]
    by_cases h : n < 128
    · simp [h, parseNat]
    · have hd : n / 128 < n := Nat.div_lt_self (by omega) (by omega)
      have hmod : ¬ (n % 128 + 128 < 128) := by omega
      simp only [h, if_false, List.cons_append, parseNat, hmod,
        ih (n / 128) hd, Option.map_some']
      have heq : n % 128 + 128 - 128 + 128 * (n / 128) = n := by omega
      rw [heq]

/-- Every byte emitted by `varint` is `< 256`. -/
theorem isBytes_varint (n : Nat) : IsBytes (varint n) := by
  induction n using Nat.strong_induction_on with
  | _ n ih =>
    rw [varint_eq]
    by_cases h : n < 128
    · intro b hb; simp [h] at hb; omega
    · have hd : n / 128 < n := Nat.div_lt_self (by omega) (by omega)
      intro b hb
      simp only [h, if_false, List.mem_cons] at hb
      rcases hb with hb | hb
      · omega
      · exact ih (n / 128) hd b hb

theorem readN_append (l r : Bytes) : readN l.length (l ++ r) = some (l, r) := by
  unfold readN
  simp

theorem parseBytes_serBytes (b : Bytes) (r : Bytes) :
    parseBytes (serBytes b ++ r) = some (b, r) := by
  unfold parseBytes serBytes
  rw [List.append_assoc, parseNat_varint]
  simpa using readN_append b r

theorem isBytes_serBytes {b : Bytes} (hb : IsBytes b) : IsBytes (serBytes b) := by
  intro x hx
  rcases List.mem_append.mp hx with h | h
  · exact isBytes_varint _ x h
  · exact hb x h

theorem charOf3_serChar (c : Char) :
    charOf3 (c.toNat % 256) (c.toNat / 256 % 256) (c.toNat / 65536) = c := by
  unfold charOf3
  have : c.toNat % 256 + 256 * (c.toNat / 256 % 256) + 65536 * (c.toNat / 65536)
      = c.toNat := by omega
  rw [this]
  exact Char.ofNat_toNat c

theorem char_toNat_lt (c : Char) : c.toNat < 1114112 := by
  have hv := c.valid
  rcases hv with h | ⟨_, h2⟩
  · have : c.toNat < 55296 := h
    omega
  · have : c.toNat < 1114112 := h2
    omega

theorem isBytes_serChar (c : Char) : IsBytes (serChar c) := by
  have hc : c.toNat < 1114112 := char_toNat_lt c
  intro b hb
  unfold serChar at hb
  simp only [List.mem_cons, List.not_mem_nil, or_false] at hb
  rcases hb with h | h | h <;> omega

theorem charsOf_serChars (cs : List Char) :
    charsOf (cs.flatMap serChar) = cs := by
  induction cs with
  | nil => rfl
  | cons c cs ih =>
    have hstep : (c :: cs).flatMap serChar
        = c.toNat % 256 :: c.toNat / 256 % 256 :: c.toNat / 65536 :: cs.flatMap serChar := by
      simp [List.flatMap_cons, serChar]
    rw [hstep, charsOf, charOf3_serChar, ih]

theorem length_flatMap_serChar (cs : List Char) :
    (cs.flatMap serChar).length = 3 * cs.length := by
  induction cs with
  | nil => rfl
  | cons c cs ih => simp [serChar, ih]; ring

theorem parseString_serString (s : String) (r : Bytes) :
    parseString (serString s ++ r) = some (s, r) := by
  unfold parseString serString
  rw [List.append_assoc, parseNat_varint]
  have hlen : 3 * s.length = (s.data.flatMap serChar).length := by
    rw [length_flatMap_serChar]; rfl
  simp only [Option.some_bind]
  rw [hlen, readN_append]
  simp only [Option.map_some', charsOf_serChars]

theorem isBytes_serString (s : String) : IsBytes (serString s) := by
  intro b hb
  rcases List.mem_append.mp hb with h | h
  · exact isBytes_varint _ b h
  · rcases List.mem_flatMap.mp h with ⟨c, _, hc⟩
    exact isBytes_serChar c b hc

/-! ### Parser extension lemmas

Each reader consumes a determined prefix of its input: extending the input
on the right only extends the returned rest.  These lemmas justify that a
truncated ciphertext can never re-parse as a complete record. -/

theorem parseNat_ext (l : Bytes) :
    ∀ {n : Nat} {r e : Bytes}, parseNat l = some (n, r) →
      parseNat (l ++ e) = some (n, r ++ e) := by
  induction l with
  | nil => intro n r e h; simp [parseNat] at h
  | cons b rest ih =>
    intro n r e h
    rw [List.cons_append]
    by_cases hb : b < 128
    · simp only [parseNat, hb, if_true, Option.some.injEq, Prod.mk.injEq] at h
      obtain ⟨rfl, rfl⟩ := h
      simp [parseNat, hb]
    · simp only [parseNat, hb, if_false] at h
      cases hp : parseNat rest with
      | none => rw [hp] at h; simp at h
      | some p =>
        rw [hp] at h
        simp only [Option.map_some', Option.some.injEq, Prod.mk.injEq] at h
        have hih : parseNat (rest ++ e) = some (p.1, p.2 ++ e) := by
          exact ih (by rw [hp])
        simp only [parseNat, hb, if_false, List.append_eq, hih, Option.map_some']
        rw [h.1, h.2]

theorem readN_ext {n : Nat} {l a b e : Bytes} (h : readN n l = some (a, b)) :
    readN n (l ++ e) = some (a, b ++ e) := by
  unfold readN at h ⊢
  by_cases hn : n ≤ l.length
  · simp only [hn, if_true, Option.some.injEq, Prod.mk.injEq] at h
    have hn' : n ≤ (l ++ e).length := by simp; omega
    simp only [hn', if_true, Option.some.injEq, Prod.mk.injEq]
    constructor
    · rw [List.take_append_of_le_length hn, h.1]
    · rw [List.drop_append_of_le_length hn, h.2]
  · simp [hn] at h

theorem parseBytes_ext {l : Bytes} {v : Bytes × Bytes} {e : Bytes}
    (h : parseBytes l = some v) : parseBytes (l ++ e) = some (v.1, v.2 ++ e) := by
  unfold parseBytes at h ⊢
  cases hp : parseNat l with
  | none => rw [hp] at h; simp at h
  | some p =>
    rw [hp] at h
    simp only [Option.some_bind] at h
    rw [parseNat_ext l hp]
    simp only [Option.some_bind]
    have := readN_ext (e := e) (a := v.1) (b := v.2) (by simpa using h)
    simpa using this

theorem parseString_ext {l : Bytes} {v : String × Bytes} {e : Bytes}
    (h : parseString l = some v) : parseString (l ++ e) = some (v.1, v.2 ++ e) := by
  unfold parseString at h ⊢
  cases hp : parseNat l with
  | none => rw [hp] at h; simp at h
  | some p =>
    rw [hp] at h
    simp only [Option.some_bind] at h
    rw [parseNat_ext l hp]
    simp only [Option.some_bind]
    cases hq : readN (3 * p.1) p.2 with
    | none => rw [hq] at h; simp at h
    | some q =>
      rw [hq] at h
      simp only [Option.map_some', Option.some.injEq] at h
      rw [readN_ext hq]
      simp [← h]

theorem parseKey_serKey (k : DerivedKey) (r : Bytes) :
    parseKey (serKey k ++ r) = some (k, r) := by
  unfold parseKey serKey
  rw [List.append_assoc, List.append_assoc, List.append_assoc, List.append_assoc,
    parseNat_varint]
  simp only [Option.some_bind]
  rw [parseNat_varint]
  simp only [Option.some_bind]
  rw [parseNat_varint]
  simp only [Option.some_bind]
  rw [parseString_serString]
  simp only [Option.some_bind]
  rw [parseBytes_serBytes]
  simp only [Option.map_some', Option.some.injEq, Prod.mk.injEq,
    eq_iff_true_of_subsingleton]

theorem parseKey_ext {l : Bytes} {v : DerivedKey × Bytes} {e : Bytes}
    (h : parseKey l = some v) : parseKey (l ++ e) = some (v.1, v.2 ++ e) := by
  unfold parseKey at h ⊢
  cases h1 : parseNat l with
  | none => rw [h1] at h; simp at h
  | some a =>
    rw [h1] at h
    rw [parseNat_ext l h1]
    simp only [Option.some_bind] at h ⊢
    cases h2 : parseNat a.2 with
    | none => rw [h2] at h; simp at h
    | some b =>
      rw [h2] at h
      rw [parseNat_ext a.2 h2]
      simp only [Option.some_bind] at h ⊢
      cases h3 : parseNat b.2 with
      | none => rw [h3] at h; simp at h
      | some c =>
        rw [h3] at h
        rw [parseNat_ext b.2 h3]
        simp only [Option.some_bind] at h ⊢
        cases h4 : parseString c.2 with
        | none => rw [h4] at h; simp at h
        | some d =>
          rw [h4] at h
          rw [parseString_ext h4]
          simp only [Option.some_bind] at h ⊢
          cases h5 : parseBytes d.2 with
          | none => rw [h5] at h; simp at h
          | some f =>
            rw [h5] at h
            rw [parseBytes_ext h5]
            simp only [Option.map_some', Option.some.injEq] at h ⊢
            subst h
            rfl

theorem parsePlain_serPlain (k : DerivedKey) (n : Bytes) (p : String) (r : Bytes) :
    parsePlain (serPlain k n p ++ r) = some ((k, n, p), r) := by
  unfold parsePlain serPlain
  rw [List.append_assoc, List.append_assoc, parseKey_serKey]
  simp only [Option.some_bind]
  rw [parseBytes_serBytes]
  simp only [Option.some_bind]
  rw [parseString_serString]
  simp only [Option.map_some']

theorem parsePlain_ext {l : Bytes} {v : (DerivedKey × Bytes × String) × Bytes}
    {e : Bytes} (h : parsePlain l = some v) :
    parsePlain (l ++ e) = some (v.1, v.2 ++ e) := by
  unfold parsePlain at h ⊢
  cases h1 : parseKey l with
  | none => rw [h1] at h; simp at h
  | some a =>
    rw [h1] at h
    rw [parseKey_ext h1]
    simp only [Option.some_bind] at h ⊢
    cases h2 : parseBytes a.2 with
    | none => rw [h2] at h; simp at h
    | some b =>
      rw [h2] at h
      rw [parseBytes_ext h2]
      simp only [Option.some_bind] at h ⊢
      cases h3 : parseString b.2 with
      | none => rw [h3] at h; simp at h
      | some c =>
        rw [h3] at h
        rw [parseString_ext h3]
        simp only [Option.map_some', Option.some.injEq] at h ⊢
        subst h
        rfl

theorem aesgcm_roundtrip (key : DerivedKey) (nonce : Bytes) (pt : String) :
    aesgcm_decrypt key nonce (aesgcm_encrypt key nonce pt) = some pt := by
  unfold aesgcm_decrypt aesgcm_encrypt
  rw [List.getLast?_concat, List.dropLast_concat]
  simp only [Option.some_bind, if_pos rfl]
  have h := parsePlain_serPlain key nonce pt []
  rw [List.append_nil] at h
  rw [h]
  simp

theorem aesgcm_wrong_key_nonce (key key2 : DerivedKey) (nonce nonce2 : Bytes)
    (pt : String) (h : key ≠ key2 ∨ nonce ≠ nonce2) :
    aesgcm_decrypt key2 nonce2 (aesgcm_encrypt key nonce pt) = none := by
  unfold aesgcm_decrypt aesgcm_encrypt
  rw [List.getLast?_concat, List.dropLast_concat]
  simp only [Option.some_bind, if_pos rfl]
  have hp := parsePlain_serPlain key nonce pt []
  rw [List.append_nil] at hp
  rw [hp]
  rcases h with h | h <;> simp [h]

/-! ### Tamper detection helpers -/

theorem sum_set (l : List Nat) (i v : Nat) (h : i < l.length) :
    (l.set i v).sum + l.getD i 0 = l.sum + v := by
  induction l generalizing i with
  | nil => simp at h
  | cons a t ih =>
    cases i with
    | zero => simp [List.set, List.getD]; omega
    | succ j =>
      have hj : j < t.length := by simpa using h
      have := ih j hj
      simp only [List.set, List.getD_cons_succ, List.sum_cons]
      omega

theorem xor_two_pow_mod_ne {a k : Nat} (hk : k < 8) :
    (a ^^^ 2 ^ k) % 256 ≠ a % 256 := by
  intro h
  have h256 : (256 : Nat) = 2 ^ 8 := by norm_num
  rw [h256] at h
  have hbit := congrArg (fun x => Nat.testBit x k) h
  have hd : decide (k < 8) = true := decide_eq_true hk
  simp only [Nat.testBit_mod_two_pow, hd, Bool.true_and, Nat.testBit_xor,
    Nat.testBit_two_pow_self] at hbit
  simp at hbit

theorem xor_two_pow_ne (a k : Nat) : a ^^^ 2 ^ k ≠ a := by
  intro h
  have hbit := congrArg (fun x => Nat.testBit x k) h
  simp only [Nat.testBit_xor, Nat.testBit_two_pow_self] at hbit
  simp at hbit

theorem checksum_flip {body : Bytes} {i k : Nat} (hi : i < body.length) (hk : k < 8) :
    (body.set i (body.getD i 0 ^^^ 2 ^ k)).sum % 256 ≠ body.sum % 256 := by
  intro h
  have hs := sum_set body i (body.getD i 0 ^^^ 2 ^ k) hi
  have hmods : ((body.set i (body.getD i 0 ^^^ 2 ^ k)).sum + body.getD i 0) % 256
      = (body.sum + (body.getD i 0 ^^^ 2 ^ k)) % 256 := by rw [hs]
  rw [Nat.add_mod, h, ← Nat.add_mod] at hmods
  have : (body.getD i 0 ^^^ 2 ^ k) % 256 = body.getD i 0 % 256 := by omega
  exact xor_two_pow_mod_ne hk this

theorem set_append_left {α : Type} (l l' : List α) (i : Nat) (v : α)
    (h : i < l.length) : (l ++ l').set i v = l.set i v ++ l' := by
  induction l generalizing i with
  | nil => simp at h
  | cons a t ih =>
    cases i with
    | zero => simp
    | succ j =>
      have hj : j < t.length := by simpa using h
      simp only [List.cons_append, List.set]
      exact congrArg (List.cons a) (ih j hj)

theorem getD_append_left {α : Type} (l l' : List α) (i : Nat) (d : α)
    (h : i < l.length) : (l ++ l').getD i d = l.getD i d := by
  induction l generalizing i with
  | nil => simp at h
  | cons a t ih =>
    cases i with
    | zero => simp
    | succ j =>
      have hj : j < t.length := by simpa using h
      simp only [List.cons_append, List.getD_cons_succ]
      exact ih j hj

theorem set_concat_last {α : Type} (l : List α) (a v : α) :
    (l ++ [a]).set l.length v = l ++ [v] := by
  induction l with
  | nil => rfl
  | cons b t ih =>
    simp only [List.cons_append, List.length_cons, List.set]
    exact congrArg (List.cons b) ih

theorem getD_concat_last {α : Type} (l : List α) (a d : α) :
    (l ++ [a]).getD l.length d = a := by
  induction l with
  | nil => rfl
  | cons b t ih =>
    simp only [List.cons_append, List.length_cons, List.getD_cons_succ]
    exact ih

/-- Flipping any single bit of an ideal-AEAD ciphertext makes decryption
fail: either the checksum byte itself changes, or the checksum no longer
matches the modified body. -/
theorem aesgcm_decrypt_flip (key : DerivedKey) (nonce : Bytes) (pt : String)
    {i k : Nat} (hk : k < 8) (hi : i < (aesgcm_encrypt key nonce pt).length) :
    aesgcm_decrypt key nonce (flipBit (aesgcm_encrypt key nonce pt) i k) = none := by
  unfold aesgcm_encrypt at hi ⊢
  set body := serPlain key nonce pt with hbody
  rw [List.length_append, List.length_singleton] at hi
  unfold flipBit
  by_cases hib : i < body.length
  · rw [getD_append_left _ _ _ _ hib, set_append_left _ _ _ _ hib]
    unfold aesgcm_decrypt
    rw [List.getLast?_concat, List.dropLast_concat]
    simp only [Option.some_bind]
    rw [if_neg (checksum_flip hib hk)]
  · have hieq : i = body.length := by omega
    subst hieq
    rw [getD_concat_last, set_concat_last]
    unfold aesgcm_decrypt
    rw [List.getLast?_concat, List.dropLast_concat]
    simp only [Option.some_bind]
    rw [if_neg]
    intro hceq
    exact xor_two_pow_ne (body.sum % 256) k hceq.symm

/-- Truncating an ideal-AEAD ciphertext makes decryption fail: the shortened
body can never re-parse as a complete serialized record. -/
theorem aesgcm_decrypt_truncate (key : DerivedKey) (nonce : Bytes) (pt : String)
    {m : Nat} (hm : m < (aesgcm_encrypt key nonce pt).length) :
    aesgcm_decrypt key nonce ((aesgcm_encrypt key nonce pt).take m) = none := by
  unfold aesgcm_encrypt at hm ⊢
  set body := serPlain key nonce pt with hbody
  rw [List.length_append, List.length_singleton] at hm
  have hmb : m ≤ body.length := by omega
  rw [List.take_append_of_le_length hmb]
  cases m with
  | zero => simp [aesgcm_decrypt]
  | succ j =>
    have hj : j < body.length := by omega
    unfold aesgcm_decrypt
    have hget : body[j]? = some (body.getD j 0) := by
      rw [List.getElem?_eq_getElem hj, List.getD_eq_getElem body 0 hj]
    have hsplit : body.take (j + 1) = body.take j ++ [body.getD j 0] := by
      rw [List.take_succ, hget]
      rfl
    rw [hsplit, List.getLast?_concat, List.dropLast_concat]
    simp only [Option.some_bind]
    by_cases hchk : (body.take j).sum % 256 = body.getD j 0
    · rw [if_pos hchk]
      cases hq : parsePlain (body.take j) with
      | none => simp
      | some q =>
        exfalso
        have hext := parsePlain_ext (e := body.drop j) hq
        rw [List.take_append_drop] at hext
        have hrt := parsePlain_serPlain key nonce pt []
        rw [List.append_nil, ← hbody] at hrt
        rw [hrt] at hext
        have hpair : (((key, nonce, pt) : DerivedKey × Bytes × String), ([] : Bytes))
            = (q.1, q.2 ++ body.drop j) := by
          exact Option.some.inj hext
        have hnil : q.2 ++ body.drop j = [] := (congrArg Prod.snd hpair).symm
        have hdrop : body.drop j = [] := (List.append_eq_nil.mp hnil).2
        have := congrArg List.length hdrop
        simp only [List.length_drop, List.length_nil] at this
        omega
    · rw [if_neg hchk]

theorem b64DecChar_b64Char : ∀ s, s < 64 → b64DecChar (b64Char s) = some s := by decide

theorem b64Char_ne_pad : ∀ s, s < 64 → b64Char s ≠ '=' := by decide

theorem b64_roundtrip : ∀ l : Bytes, IsBytes l →
    urlsafe_b64decode (urlsafe_b64encode l) = some l := by
  intro l
  induction l using urlsafe_b64encode.induct with
  | case1 a b c rest ih =>
    intro hl
    have ha : a < 256 := hl a (by simp)
    have hb : b < 256 := hl b (by simp)
    have hc : c < 256 := hl c (by simp)
    have hrest : IsBytes rest := fun x hx => hl x (by simp [hx])
    have h1 : a / 4 < 64 := by omega
    have h2 : a % 4 * 16 + b / 16 < 64 := by omega
    have h3 : b % 16 * 4 + c / 64 < 64 := by omega
    have h4 : c % 64 < 64 := by omega
    rw [urlsafe_b64encode, urlsafe_b64decode]
    rw [if_neg (fun hcontra => b64Char_ne_pad _ h3 hcontra.1)]
    rw [if_neg (fun hcontra => b64Char_ne_pad _ h4 hcontra.1)]
    rw [b64DecChar_b64Char _ h1, b64DecChar_b64Char _ h2,
      b64DecChar_b64Char _ h3, b64DecChar_b64Char _ h4, ih hrest]
    simp only [Option.some_bind, Option.map_some', Option.some.injEq, List.cons.injEq]
    refine ⟨by omega, by omega, by omega, trivial⟩
  | case2 a b =>
    intro hl
    have ha : a < 256 := hl a (by simp)
    have hb : b < 256 := hl b (by simp)
    have h1 : a / 4 < 64 := by omega
    have h2 : a % 4 * 16 + b / 16 < 64 := by omega
    have h3 : b % 16 * 4 < 64 := by omega
    rw [urlsafe_b64encode, urlsafe_b64decode]
    rw [if_neg (fun hcontra => b64Char_ne_pad _ h3 hcontra.1)]
    rw [if_pos ⟨rfl, rfl⟩]
    rw [b64DecChar_b64Char _ h1, b64DecChar_b64Char _ h2, b64DecChar_b64Char _ h3]
    simp only [Option.some_bind, Option.map_some', Option.some.injEq, List.cons.injEq]
    refine ⟨by omega, by omega, trivial⟩
  | case3 a =>
    intro hl
    have ha : a < 256 := hl a (by simp)
    have h1 : a / 4 < 64 := by omega
    have h2 : a % 4 * 16 < 64 := by omega
    rw [urlsafe_b64encode, urlsafe_b64decode]
    rw [if_pos ⟨rfl, rfl, rfl⟩]
    rw [b64DecChar_b64Char _ h1, b64DecChar_b64Char _ h2]
    simp only [Option.some_bind, Option.map_some', Option.some.injEq, List.cons.injEq]
    refine ⟨by omega, trivial⟩
  | case4 => intro _; rfl

theorem isBytes_serKey {k : DerivedKey} (hsalt : IsBytes k.salt) :
    IsBytes (serKey k) := by
  intro x hx
  unfold serKey at hx
  rcases List.mem_append.mp hx with hx | hx
  · rcases List.mem_append.mp hx with hx | hx
    · rcases List.mem_append.mp hx with hx | hx
      · rcases List.mem_append.mp hx with hx | hx
        · exact isBytes_varint _ x hx
        · exact isBytes_varint _ x hx
      · exact isBytes_varint _ x hx
    · exact isBytes_serString _ x hx
  · exact isBytes_serBytes hsalt x hx

theorem isBytes_serPlain {k : DerivedKey} {nonce : Bytes} (pt : String)
    (hsalt : IsBytes k.salt) (hnonce : IsBytes nonce) :
    IsBytes (serPlain k nonce pt) := by
  intro x hx
  unfold serPlain at hx
  rcases List.mem_append.mp hx with hx | hx
  · exact isBytes_serKey hsalt x hx
  · rcases List.mem_append.mp hx with hx | hx
    · exact isBytes_serBytes hnonce x hx
    · exact isBytes_serString _ x hx

theorem isBytes_aesgcm_encrypt {k : DerivedKey} {nonce : Bytes} (pt : String)
    (hsalt : IsBytes k.salt) (hnonce : IsBytes nonce) :
    IsBytes (aesgcm_encrypt k nonce pt) := by
  intro x hx
  unfold aesgcm_encrypt at hx
  rcases List.mem_append.mp hx with hx | hx
  · exact isBytes_serPlain pt hsalt hnonce x hx
  · simp only [List.mem_singleton] at hx
    omega

/-- Evaluation of `decrypt` once the three base64 fields decode. -/
theorem decrypt_eq (password : String) (r : EncryptedRecord) {s n c : Bytes}
    (hs : urlsafe_b64decode r.salt.data = some s)
    (hn : urlsafe_b64decode r.nonce.data = some n)
    (hc : urlsafe_b64decode r.ciphertext.data = some c) :
    decrypt password r = aesgcm_decrypt (derive_key password s) n c := by
  unfold decrypt
  rw [hs, hn, hc]
  rfl

theorem derive_key_inj {p1 p2 : String} {s1 s2 : Bytes} :
    derive_key p1 s1 = derive_key p2 s2 ↔ p1 = p2 ∧ s1 = s2 := by
  unfold derive_key
  simp [DerivedKey.mk.injEq]

theorem isBytes_set : ∀ (l : Bytes) (i v : Nat), IsBytes l → v < 256 →
    IsBytes (l.set i v)
  | [], _, _, _, _ => by intro x hx; simp at hx
  | a :: t, 0, v, hl, hv => by
    intro x hx
    rcases List.mem_cons.mp hx with rfl | hx
    · exact hv
    · exact hl x (List.mem_cons_of_mem a hx)
  | a :: t, j + 1, v, hl, hv => by
    intro x hx
    rcases List.mem_cons.mp hx with rfl | hx
    · exact hl x (List.mem_cons_self _ _)
    · exact isBytes_set t j v (fun y hy => hl y (List.mem_cons_of_mem a hy)) hv x hx

theorem two_pow_lt_256 {k : Nat} (hk : k < 8) : (2 : Nat) ^ k < 256 :=
  calc (2 : Nat) ^ k < 2 ^ 8 := Nat.pow_lt_pow_right (by omega) hk
  _ = 256 := by norm_num

theorem isBytes_flipBit {l : Bytes} {i k : Nat} (hl : IsBytes l) (hk : k < 8) :
    IsBytes (flipBit l i k) := by
  unfold flipBit
  apply isBytes_set l i _ hl
  by_cases hi : i < l.length
  · have h1 : l.getD i 0 < 256 := by
      rw [List.getD_eq_getElem l 0 hi]
      exact hl _ (List.getElem_mem hi)
    have h3 : l.getD i 0 ^^^ 2 ^ k < 2 ^ 8 := by
      apply Nat.xor_lt_two_pow
      · calc l.getD i 0 < 256 := h1
        _ = 2 ^ 8 := by norm_num
      · exact Nat.pow_lt_pow_right (by omega) hk
    calc l.getD i 0 ^^^ 2 ^ k < 2 ^ 8 := h3
    _ = 256 := by norm_num
  · have hz : l.getD i 0 = 0 := List.getD_eq_default _ _ (by omega)
    rw [hz]
    simpa using two_pow_lt_256 hk

theorem set_ne_of_ne {l : Bytes} {i v : Nat} (hi : i < l.length)
    (hv : v ≠ l.getD i 0) : l.set i v ≠ l := by
  induction l generalizing i with
  | nil => simp at hi
  | cons a t ih =>
    cases i with
    | zero =>
      simp only [List.set]
      intro hcontra
      exact hv (by simpa using congrArg (fun x => x.getD 0 0) hcontra)
    | succ j =>
      simp only [List.set]
      intro hcontra
      have hj : j < t.length := by simpa using hi
      have hv' : v ≠ t.getD j 0 := by simpa using hv
      exact ih hj hv' (by simpa using hcontra)

theorem flipBit_ne {l : Bytes} {i k : Nat} (hi : i < l.length) :
    flipBit l i k ≠ l := by
  unfold flipBit
  exact set_ne_of_ne hi (xor_two_pow_ne _ _)

/-- Record-level roundtrip: decrypting with the same passphrase recovers
the plaintext. -/
theorem decrypt_encrypt (password : String) (salt nonce : Bytes) (pt : String)
    (hs : IsBytes salt) (hn : IsBytes nonce) :
    decrypt password (encrypt password salt nonce pt) = some pt := by
  rw [decrypt_eq password (encrypt password salt nonce pt)
    (b64_roundtrip salt hs) (b64_roundtrip nonce hn)
    (b64_roundtrip _ (isBytes_aesgcm_encrypt pt hs hn))]
  exact aesgcm_roundtrip _ _ _

/-- Record-level wrong-passphrase rejection. -/
theorem decrypt_wrong_password (p1 p2 : String) (salt nonce : Bytes)
    (pt : String) (hs : IsBytes salt) (hn : IsBytes nonce) (hne : p2 ≠ p1) :
    decrypt p2 (encrypt p1 salt nonce pt) = none := by
  rw [decrypt_eq p2 (encrypt p1 salt nonce pt)
    (b64_roundtrip salt hs) (b64_roundtrip nonce hn)
    (b64_roundtrip _ (isBytes_aesgcm_encrypt pt hs hn))]
  apply aesgcm_wrong_key_nonce
  left
  intro hcontra
  exact hne (derive_key_inj.mp hcontra).1.symm

/-- Record-level salt tampering: one flipped bit in the salt changes the
derived key, so the tag check fails. -/
theorem decrypt_flip_salt (password : String) (salt nonce : Bytes) (pt : String)
    {i k : Nat} (hs : IsBytes salt) (hn : IsBytes nonce) (hk : k < 8)
    (hi : i < salt.length) :
    decrypt password
      { encrypt password salt nonce pt with
        salt := String.mk (urlsafe_b64encode (flipBit salt i k)) } = none := by
  rw [decrypt_eq password _
    (b64_roundtrip _ (isBytes_flipBit hs hk)) (b64_roundtrip nonce hn)
    (b64_roundtrip _ (isBytes_aesgcm_encrypt pt hs hn))]
  apply aesgcm_wrong_key_nonce
  left
  intro hcontra
  exact flipBit_ne hi (derive_key_inj.mp hcontra).2.symm

/-- Record-level nonce tampering. -/
theorem decrypt_flip_nonce (password : String) (salt nonce : Bytes) (pt : String)
    {i k : Nat} (hs : IsBytes salt) (hn : IsBytes nonce) (hk : k < 8)
    (hi : i < nonce.length) :
    decrypt password
      { encrypt password salt nonce pt with
        nonce := String.mk (urlsafe_b64encode (flipBit nonce i k)) } = none := by
  rw [decrypt_eq password _
    (b64_roundtrip salt hs) (b64_roundtrip _ (isBytes_flipBit hn hk))
    (b64_roundtrip _ (isBytes_aesgcm_encrypt pt hs hn))]
  apply aesgcm_wrong_key_nonce
  right
  intro hcontra
  exact flipBit_ne hi hcontra.symm

/-- Record-level ciphertext tampering. -/
theorem decrypt_flip_ciphertext (password : String) (salt nonce : Bytes)
    (pt : String) {i k : Nat} (hs : IsBytes salt) (hn : IsBytes nonce)
    (hk : k < 8)
    (hi : i < (aesgcm_encrypt (derive_key password salt) nonce pt).length) :
    decrypt password
      { encrypt password salt nonce pt with
        ciphertext := String.mk (urlsafe_b64encode
          (flipBit (aesgcm_encrypt (derive_key password salt) nonce pt) i k)) }
      = none := by
  rw [decrypt_eq password _
    (b64_roundtrip salt hs) (b64_roundtrip nonce hn)
    (b64_roundtrip _ (isBytes_flipBit (isBytes_aesgcm_encrypt pt hs hn) hk))]
  exact aesgcm_decrypt_flip _ _ _ hk hi

/-- Record-level truncation of the ciphertext field. -/
theorem decrypt_truncate_ciphertext (password : String) (salt nonce : Bytes)
    (pt : String) {m : Nat} (hs : IsBytes salt) (hn : IsBytes nonce)
    (hm : m < (aesgcm_encrypt (derive_key password salt) nonce pt).length) :
    decrypt password
      { encrypt password salt nonce pt with
        ciphertext := String.mk (urlsafe_b64encode
          ((aesgcm_encrypt (derive_key password salt) nonce pt).take m)) }
      = none := by
  have htake : IsBytes ((aesgcm_encrypt (derive_key password salt) nonce pt).take m) :=
    fun x hx => isBytes_aesgcm_encrypt pt hs hn x ((List.take_sublist _ _).subset hx)
  rw [decrypt_eq password _
    (b64_roundtrip salt hs) (b64_roundtrip nonce hn) (b64_roundtrip _ htake)]
  exact aesgcm_decrypt_truncate _ _ _ hm

theorem data_mk (l : List Char) : (String.mk l).data = l := rfl

theorem mk_data (s : String) : String.mk s.data = s := rfl

theorem dropLit_append (p l : List Char) : dropLit p (p ++ l) = some l := by
  induction p with
  | nil => rfl
  | cons c cs ih => simp [dropLit, ih]

theorem parseJString_escape (cs : List Char) (r : List Char) :
    parseJString (cs.flatMap escapeChar ++ '"' :: r) = some (cs, r) := by
  induction cs with
  | nil => rfl
  | cons c cs ih =>
    by_cases h : c = '"' ∨ c = '\\'
    · have hstep : ((c :: cs).flatMap escapeChar ++ '"' :: r)
          = '\\' :: c :: (cs.flatMap escapeChar ++ '"' :: r) := by
        simp [List.flatMap_cons, escapeChar, h]
      rw [hstep, parseJString, ih]
      rfl
    · push_neg at h
      have hstep : ((c :: cs).flatMap escapeChar ++ '"' :: r)
          = c :: (cs.flatMap escapeChar ++ '"' :: r) := by
        simp [List.flatMap_cons, escapeChar, h.1, h.2]
      rw [hstep]
      have hq : c ≠ '"' := h.1
      have hb : c ≠ '\\' := h.2
      rw [parseJString.eq_def]
      split
      · next c2 rest heq =>
        exfalso
        exact hb (List.cons.inj heq).1
      · next rest heq =>
        exfalso
        exact hq (List.cons.inj heq).1
      · next c2 rest x x heq =>
        obtain ⟨rfl, rfl⟩ := List.cons.inj heq
        rw [ih]
        rfl
      · next heq => simp at heq

theorem parseJString_escapeStr (s : String) (r : List Char) :
    parseJString (escapeStr s ++ '"' :: r) = some (s.data, r) :=
  parseJString_escape s.data r

/-- Parsing inverts printing for every entry, including quotes and
backslashes in field values. -/
theorem loadsEntry_dumpsEntry (e : Entry) : loadsEntry (dumpsEntry e) = some e := by
  unfold loadsEntry dumpsEntry loadsEntryChars
  rw [data_mk]
  simp [dropLit, parseJString_escapeStr, mk_data]

/-! ## Claim theorems -/

theorem length_filterMap_add_countP {α β : Type} (f : α → Option β) (l : List α) :
    (l.filterMap f).length + l.countP (fun a => (f a).isNone) = l.length := by
  induction l with
  | nil => rfl
  | cons a t ih =>
    cases hf : f a with
    | none =>
      simp [List.filterMap_cons, hf, List.countP_cons]
      omega
    | some b =>
      simp [List.filterMap_cons, hf, List.countP_cons]
      omega

/-- C1: for every passphrase of at least 8 characters and every plaintext,
decrypting the record produced by `encrypt` with the same passphrase
returns the plaintext, for any fresh 16-byte salt and 12-byte nonce
consumed by `encrypt`. -/
theorem C1_roundtrip (p : String) (salt nonce : Bytes) (t : String)
    (_hp : 8 ≤ p.length)
    (_hslen : salt.length = 16) (hsb : IsBytes salt)
    (_hnlen : nonce.length = 12) (hnb : IsBytes nonce) :
    decrypt p (encrypt p salt nonce t) = some t :=
  decrypt_encrypt p salt nonce t hsb hnb

theorem C1_witness :
    decrypt "password" (encrypt "password" (List.replicate 16 0)
      (List.replicate 12 0) "secret") = some "secret" :=
  C1_roundtrip "password" (List.replicate 16 0) (List.replicate 12 0) "secret"
    (by decide) (by decide) (by decide) (by decide) (by decide)

/-- C2: decryption with a different passphrase, with any single bit flipped
in the salt, nonce, or ciphertext, or with truncated ciphertext, fails
(returns `none` — the `InvalidTag`/`AuthenticationError` outcome — and
hence no partial or unauthenticated plaintext). -/
theorem C2_tamper (p p2 : String) (salt nonce : Bytes) (t : String)
    (i k m : Nat) (hsb : IsBytes salt) (hnb : IsBytes nonce) :
    (p2 ≠ p → decrypt p2 (encrypt p salt nonce t) = none)
    ∧ (k < 8 → i < salt.length →
        decrypt p { encrypt p salt nonce t with
          salt := String.mk (urlsafe_b64encode (flipBit salt i k)) } = none)
    ∧ (k < 8 → i < nonce.length →
        decrypt p { encrypt p salt nonce t with
          nonce := String.mk (urlsafe_b64encode (flipBit nonce i k)) } = none)
    ∧ (k < 8 → i < (aesgcm_encrypt (derive_key p salt) nonce t).length →
        decrypt p { encrypt p salt nonce t with
          ciphertext := String.mk (urlsafe_b64encode
            (flipBit (aesgcm_encrypt (derive_key p salt) nonce t) i k)) } = none)
    ∧ (m < (aesgcm_encrypt (derive_key p salt) nonce t).length →
        decrypt p { encrypt p salt nonce t with
          ciphertext := String.mk (urlsafe_b64encode
            ((aesgcm_encrypt (derive_key p salt) nonce t).take m)) } = none) := by
  refine ⟨?_, ?_, ?_, ?_, ?_⟩
  · intro hne
    exact decrypt_wrong_password p p2 salt nonce t hsb hnb hne
  · intro hk hi
    exact decrypt_flip_salt p salt nonce t hsb hnb hk hi
  · intro hk hi
    exact decrypt_flip_nonce p salt nonce t hsb hnb hk hi
  · intro hk hi
    exact decrypt_flip_ciphertext p salt nonce t hsb hnb hk hi
  · intro hm
    exact decrypt_truncate_ciphertext p salt nonce t hsb hnb hm

theorem C2_witness :
    decrypt "password2" (encrypt "password1" (List.replicate 16 0)
        (List.replicate 12 0) "secret") = none
    ∧ decrypt "password1" { encrypt "password1" (List.replicate 16 0)
        (List.replicate 12 0) "secret" with
        salt := String.mk (urlsafe_b64encode
          (flipBit (List.replicate 16 0) 0 0)) } = none
    ∧ decrypt "password1" { encrypt "password1" (List.replicate 16 0)
        (List.replicate 12 0) "secret" with
        nonce := String.mk (urlsafe_b64encode
          (flipBit (List.replicate 12 0) 0 0)) } = none
    ∧ decrypt "password1" { encrypt "password1" (List.replicate 16 0)
        (List.replicate 12 0) "secret" with
        ciphertext := String.mk (urlsafe_b64encode
          (flipBit (aesgcm_encrypt (derive_key "password1" (List.replicate 16 0))
            (List.replicate 12 0) "secret") 0 0)) } = none
    ∧ decrypt "password1" { encrypt "password1" (List.replicate 16 0)
        (List.replicate 12 0) "secret" with
        ciphertext := String.mk (urlsafe_b64encode
          ((aesgcm_encrypt (derive_key "password1" (List.replicate 16 0))
            (List.replicate 12 0) "secret").take 1)) } = none := by
  have h := C2_tamper "password1" "password2" (List.replicate 16 0)
    (List.replicate 12 0) "secret" 0 0 1 (by decide) (by decide)
  refine ⟨h.1 (by decide), h.2.1 (by decide) (by decide),
    h.2.2.1 (by decide) (by decide), h.2.2.2.1 (by decide) ?_, h.2.2.2.2 ?_⟩
  · decide
  · decide

/-- C3: a bulk load with a valid master never aborts on per-record decrypt
failures: it displays exactly the successfully decrypted records (in
order) and reports the failure count in aggregate; in particular a vault
with one record under passphrase A and one under passphrase B, loaded with
A, shows the first entry and reports exactly one decryption error. -/
theorem C3_bulk_load (master pB : String) (data : List EncryptedRecord)
    (s1 n1 s2 n2 : Bytes) (e1 e2 : Entry)
    (hne : master ≠ "") (hm8 : 8 ≤ master.length)
    (hs1 : IsBytes s1) (hn1 : IsBytes n1) (hs2 : IsBytes s2) (hn2 : IsBytes n2)
    (hAB : master ≠ pB) :
    ((handle_load_vault master (.vault data)).rows
        = data.filterMap (decryptRecordEntry master)
      ∧ (handle_load_vault master (.vault data)).rows.length
          = data.length
            - data.countP (fun r => (decryptRecordEntry master r).isNone)
      ∧ (0 < data.countP (fun r => (decryptRecordEntry master r).isNone) →
          data.countP (fun r => (decryptRecordEntry master r).isNone)
              ≠ data.length →
          (handle_load_vault master (.vault data)).status
            = "Loaded vault with "
              ++ toString (data.countP fun r => (decryptRecordEntry master r).isNone)
              ++ " decryption errors.")
      ∧ (data.countP (fun r => (decryptRecordEntry master r).isNone) = data.length →
          (handle_load_vault master (.vault data)).status
            = "[Error] Decryption failed for all entries.")
      ∧ (data.countP (fun r => (decryptRecordEntry master r).isNone) = 0 →
          0 < data.length →
          (handle_load_vault master (.vault data)).status
            = "Vault loaded successfully."))
    ∧ handle_load_vault master
        (.vault [encrypt master s1 n1 (dumpsEntry e1),
                 encrypt pB s2 n2 (dumpsEntry e2)])
      = ⟨"Loaded vault with 1 decryption errors.", [e1]⟩ := by
  have hm8' : ¬ master.length < 8 := by omega
  have hrows : (handle_load_vault master (.vault data)).rows
      = data.filterMap (decryptRecordEntry master) := by
    unfold handle_load_vault
    rw [if_neg hne, if_neg hm8']
    by_cases h1 : (data.countP fun r => (decryptRecordEntry master r).isNone)
        = data.length
    · simp [h1]
    · by_cases h2 : 0 < data.countP fun r => (decryptRecordEntry master r).isNone
      · simp [h1, h2]
      · simp [h1, h2]
  constructor
  · refine ⟨hrows, ?_, ?_, ?_, ?_⟩
    · rw [hrows]
      have hsum := length_filterMap_add_countP (decryptRecordEntry master) data
      omega
    · intro h2 h1
      unfold handle_load_vault
      rw [if_neg hne, if_neg hm8']
      simp [h1, h2]
    · intro h1
      unfold handle_load_vault
      rw [if_neg hne, if_neg hm8']
      simp [h1]
    · intro h0 hlen
      have h1 : ¬ (data.countP fun r => (decryptRecordEntry master r).isNone)
          = data.length := by omega
      have h1' : ¬ (0 = data.length) := by omega
      unfold handle_load_vault
      rw [if_neg hne, if_neg hm8']
      simp [h0, h1, h1']
  · have hr1 : decryptRecordEntry master (encrypt master s1 n1 (dumpsEntry e1))
        = some e1 := by
      unfold decryptRecordEntry
      rw [decrypt_encrypt master s1 n1 _ hs1 hn1]
      simp [loadsEntry_dumpsEntry]
    have hr2 : decryptRecordEntry master (encrypt pB s2 n2 (dumpsEntry e2))
        = none := by
      unfold decryptRecordEntry
      rw [decrypt_wrong_password pB master s2 n2 _ hs2 hn2 hAB]
      rfl
    unfold handle_load_vault
    rw [if_neg hne, if_neg hm8']
    simp only [List.filterMap_cons, List.filterMap_nil, List.countP_cons,
      List.countP_nil, hr1, hr2, Option.isNone_some, Option.isNone_none,
      List.length_cons, List.length_nil]
    norm_num
    decide

theorem C3_witness :
    handle_load_vault "password1"
      (.vault [encrypt "password1" (List.replicate 16 0) (List.replicate 12 0)
          (dumpsEntry ⟨"gmail", "alice", "pw1"⟩),
        encrypt "password2" (List.replicate 16 1) (List.replicate 12 1)
          (dumpsEntry ⟨"site", "bob", "pw2"⟩)])
      = ⟨"Loaded vault with 1 decryption errors.", [⟨"gmail", "alice", "pw1"⟩]⟩ :=
  (C3_bulk_load "password1" "password2" [] (List.replicate 16 0)
    (List.replicate 12 0) (List.replicate 16 1) (List.replicate 12 1)
    ⟨"gmail", "alice", "pw1"⟩ ⟨"site", "bob", "pw2"⟩ (by decide) (by decide)
    (by decide) (by decide) (by decide) (by decide) (by decide)).2

/-- C4 counterexample: a file whose content is valid JSON but not a
sequence of records is returned as-is by `load_data`, not rejected. -/
theorem C4_counterexample :
    load_data (some (.jsonDoc (.str "oops"))) = .ok (.str "oops")
    ∧ isRecordSeq (.str "oops") = false :=
  ⟨rfl, rfl⟩

/-- C4 (amended): `load_data` returns the parsed JSON document whatever its
shape when the file exists and parses, the empty sequence when no file
exists, and fails (JSONDecodeError, the StorageError-Corrupt case) exactly
when the content is not valid JSON; parsing is all-or-nothing, so no
partially-parsed result is ever returned. -/
theorem C4_load_data :
    load_data none = .ok (.arr [])
    ∧ (∀ j, load_data (some (.jsonDoc j)) = .ok j)
    ∧ load_data (some .notJson) = .error .corrupt :=
  ⟨rfl, fun _ => rfl, rfl⟩

/-- C5: appending a record to a persisted vault and re-loading yields the
original sequence with the record appended, order preserved; clearing and
re-loading yields the empty sequence. -/
theorem C5_persistence (st : Option FileContent) (V : List Json) (r : Json)
    (h : load_data st = .ok (.arr V)) :
    add_entry_flow st r = .ok (save_data (.arr (V ++ [r])))
    ∧ load_data (save_data (.arr (V ++ [r]))) = .ok (.arr (V ++ [r]))
    ∧ load_data (clear_vault st) = .ok (.arr []) := by
  refine ⟨?_, rfl, rfl⟩
  unfold add_entry_flow
  rw [h]

theorem C5_witness :
    add_entry_flow none (.str "r") = .ok (save_data (.arr ([] ++ [.str "r"])))
    ∧ load_data (save_data (.arr ([] ++ [.str "r"]))) = .ok (.arr ([] ++ [.str "r"]))
    ∧ load_data (clear_vault none) = .ok (.arr []) :=
  C5_persistence none [] (.str "r") rfl

/-- C6 counterexample: the core `encrypt` does not reject a passphrase
shorter than 8 characters — it derives a key and encrypts, producing a
record that decrypts normally. -/
theorem C6_counterexample :
    "short".length < 8
    ∧ decrypt "short" (encrypt "short" (List.replicate 16 0)
        (List.replicate 12 0) "secret") = some "secret" :=
  ⟨by decide,
   decrypt_encrypt "short" (List.replicate 16 0) (List.replicate 12 0) "secret"
     (by decide) (by decide)⟩

/-- C6 (amended): passphrases shorter than 8 characters are rejected with a
validation error by the caller (`handle_save_entry`) before any encryption
and without modifying the vault; the core `encrypt` itself performs no
length validation and encrypts successfully under any passphrase. -/
theorem C6_short_passphrase (inp : SaveInputs) (file : VaultFile)
    (salt nonce : Bytes) (t : String)
    (hsv : ¬ (inp.service = "" ∨ inp.password = ""))
    (hm : inp.master.length < 8) :
    handle_save_entry inp file salt nonce
      = .error "[Error] Master password must be at least 8 characters." file
    ∧ (IsBytes salt → IsBytes nonce →
        decrypt inp.master (encrypt inp.master salt nonce t) = some t) := by
  constructor
  · unfold handle_save_entry
    rw [if_neg hsv, if_pos hm]
  · intro hs hn
    exact decrypt_encrypt _ _ _ _ hs hn

theorem C6_witness :
    handle_save_entry ⟨"short", "gmail", "user", "pw"⟩ .missing
        (List.replicate 16 0) (List.replicate 12 0)
      = .error "[Error] Master password must be at least 8 characters." .missing
    ∧ decrypt "short" (encrypt "short" (List.replicate 16 0)
        (List.replicate 12 0) "topsecret") = some "topsecret" :=
  have h := C6_short_passphrase ⟨"short", "gmail", "user", "pw"⟩ .missing
    (List.replicate 16 0) (List.replicate 12 0) "topsecret"
    (by decide) (by decide)
  ⟨h.1, h.2 (by decide) (by decide)⟩

/-- C7: `derive_key` is deterministic and always uses PBKDF2-HMAC-SHA-256
with a 32-byte output at exactly 100 000 iterations (the configuration
recorded in the derived-key token). -/
theorem C7_derive_key (p : String) (s : Bytes) :
    derive_key p s = derive_key p s
    ∧ (derive_key p s).params.algorithm = HashAlgo.SHA256
    ∧ (derive_key p s).params.length = 32
    ∧ (derive_key p s).params.iterations = 100000 :=
  ⟨rfl, rfl, rfl, rfl⟩

/-- C8: the receiver reads at most 4096 bytes from the single accepted
connection and returns exactly what was read: payloads of at most 4096
bytes come back byte-for-byte, and a 5000-byte payload is truncated to its
first 4096 bytes with the excess discarded. -/
theorem C8_receive (payload : Bytes) :
    receive_password payload = payload.take 4096
    ∧ (payload.length ≤ 4096 → receive_password payload = payload)
    ∧ (payload.length = 5000 → (receive_password payload).length = 4096) := by
  refine ⟨rfl, ?_, ?_⟩
  · intro h
    unfold receive_password
    exact List.take_of_length_le h
  · intro h
    unfold receive_password
    rw [List.length_take, h]
    omega

theorem C8_witness :
    receive_password (List.replicate 5000 0) = (List.replicate 5000 0).take 4096
    ∧ (receive_password (List.replicate 5000 0)).length = 4096 :=
  ⟨(C8_receive (List.replicate 5000 0)).1,
   (C8_receive (List.replicate 5000 0)).2.2 (List.length_replicate 5000 0)⟩

/-- C9: when both identity files exist the call returns them unchanged and
writes nothing; when either is absent it generates a 2048-bit RSA key and a
self-signed certificate valid 365 days from generation time with common
name and subject-alternative-name `localhost`, persisting both at the
well-known location. -/
theorem C9_ensure_identity (st : PkiState) (now : Nat) :
    (st.certFile.isSome ∧ st.keyFile.isSome →
      create_self_signed_cert st now = st)
    ∧ (¬ (st.certFile.isSome ∧ st.keyFile.isSome) →
      create_self_signed_cert st now
        = { certFile := some
              { country := "US"
                stateOrProvince := "State"
                locality := "Locality"
                organization := "MyOrg"
                commonName := "localhost"
                issuerCommonName := "localhost"
                subjectAltNames := ["localhost"]
                validFromDay := now
                validToDay := now + 365
                keyBits := 2048
                selfSigned := true }
            keyFile := some { bits := 2048, publicExponent := 65537 } }) := by
  constructor
  · intro h
    unfold create_self_signed_cert
    rw [if_pos h]
  · intro h
    unfold create_self_signed_cert
    rw [if_neg h]

theorem C9_witness :
    create_self_signed_cert ⟨none, none⟩ 10
      = { certFile := some
            { country := "US"
              stateOrProvince := "State"
              locality := "Locality"
              organization := "MyOrg"
              commonName := "localhost"
              issuerCommonName := "localhost"
              subjectAltNames := ["localhost"]
              validFromDay := 10
              validToDay := 10 + 365
              keyBits := 2048
              selfSigned := true }
          keyFile := some { bits := 2048, publicExponent := 65537 } }
    ∧ create_self_signed_cert (create_self_signed_cert ⟨none, none⟩ 10) 99
        = create_self_signed_cert ⟨none, none⟩ 10 :=
  ⟨(C9_ensure_identity ⟨none, none⟩ 10).2 (by decide),
   (C9_ensure_identity (create_self_signed_cert ⟨none, none⟩ 10) 99).1 (by decide)⟩

/-- C10: the legacy module fixes one process-wide Fernet key at import time
(the MASTER_KEY environment variable if set, else freshly generated); entry
encryption round-trips within a run, and an entry from a previous run
decrypts in a later run exactly when MASTER_KEY was set to the same value
in both runs. -/
theorem C10_fernet (env1 env2 : Option String) (r1 r2 : Nat)
    (s u p : String) :
    decrypt_entry (SECRET_KEY env1 r1)
        (encrypt_entry (SECRET_KEY env1 r1) s u p) = some (s, u, p)
    ∧ (r1 ≠ r2 →
        (decrypt_entry (SECRET_KEY env2 r2)
            (encrypt_entry (SECRET_KEY env1 r1) s u p) = some (s, u, p)
          ↔ env1 = env2 ∧ env1.isSome)) := by
  have hkey : ∀ k1 k2 : FernetKey,
      decrypt_entry k2 (encrypt_entry k1 s u p)
        = if k1 = k2 then some (s, u, p) else none := by
    intro k1 k2
    by_cases hk : k1 = k2 <;>
      simp [decrypt_entry, encrypt_entry, fernet_encrypt, fernet_decrypt, hk]
  constructor
  · rw [hkey]
    simp
  · intro hr
    rw [hkey]
    match env1, env2 with
    | some m1, some m2 =>
      by_cases hm : m1 = m2 <;> simp [SECRET_KEY, hm]
    | some m1, none =>
      simp [SECRET_KEY]
    | none, some m2 =>
      simp [SECRET_KEY]
    | none, none =>
      simp [SECRET_KEY, hr]

theorem C10_witness :
    decrypt_entry (SECRET_KEY (some "master") 0)
        (encrypt_entry (SECRET_KEY (some "master") 0) "gmail" "alice" "pw")
      = some ("gmail", "alice", "pw")
    ∧ decrypt_entry (SECRET_KEY (some "master") 1)
        (encrypt_entry (SECRET_KEY (some "master") 0) "gmail" "alice" "pw")
      = some ("gmail", "alice", "pw") :=
  ⟨(C10_fernet (some "master") (some "master") 0 1 "gmail" "alice" "pw").1,
   ((C10_fernet (some "master") (some "master") 0 1 "gmail" "alice" "pw").2
     (by decide)).mpr (by simp)⟩

end PM
